import Mathlib

/-!
Verification of the LIF-neuron simulation core of `SNN-Exercise-1.py`.

The numerically relevant code of the repository is a collection of
notebook cells, each containing the same Euler-forward simulation loop
(Task 1, lines 101-118), wrapped by linear search loops (Task 2 rheobase
search, lines 139-165; Task 5 stimulus-duration search, lines 307-353).
We embed that code shallowly over exact rationals:

* Python floats become `ℚ` (exact arithmetic; the reference answers the
  spec cites are robust to the float/rational difference at the tested
  tolerances).
* The loop `t = 0; while t <= horizon: ...; t += dt` accumulates time
  additively, so under exact arithmetic `t = k * dt` at the `k`-th
  iteration; we carry the step index `k` and run the body for every `k`
  with `k * dt ≤ horizon`, i.e. `⌊horizon / dt⌋ + 1` iterations
  (the spec, section 4.4, sanctions the step-counter representation).
* The unbounded `while` search loops of Tasks 2 and 5 become fuel-indexed
  recursions returning `Option`: a result `some x` means the loop exits
  with value `x` within the given number of iterations, and
  `∀ fuel, ... = none` means the loop never exits.
-/

/-- Neuron parameters (src lines 74-78): membrane resistance `R`, time
constant `tau_m`, resting, reset and threshold potentials. -/
structure NeuronParams where
  R : ℚ
  tau_m : ℚ
  u_rest : ℚ
  u_reset : ℚ
  u_thres : ℚ
deriving DecidableEq

/-- Euler forward step (src lines 106-107):
`du_dt = (-(u - u_rest) + R * I_syn) / tau_m; u += du_dt * dt`. -/
def eulerStep (p : NeuronParams) (I u dt : ℚ) : ℚ :=
  u + (-(u - p.u_rest) + p.R * I) / p.tau_m * dt

/-- The mutable loop variables of one simulation run (src lines 92-102):
membrane potential `u`, spike times `t_spike`, spiking neuron ids
`n_spike`, and the recorded samples `u_i`, `t_i`. -/
structure SimState where
  u : ℚ
  t_spike : List ℚ
  n_spike : List ℕ
  u_i : List ℚ
  t_i : List ℚ
deriving DecidableEq

/-- Run-start state (src lines 93-102): empty lists, `u = u_rest`. -/
def initState (p : NeuronParams) : SimState :=
  ⟨p.u_rest, [], [], [], []⟩

/-- One iteration of the simulation loop body (src lines 105-117) at
time `t` with input current `I`: Euler step, store `u`, spike
condition `u >= u_thres` (append spike time and neuron id, reset `u`),
store `t`.  Note that `u_i.append(u)` precedes the spike condition
while `t_i.append(t)` follows it, exactly as in the source. -/
def stepBody (p : NeuronParams) (dt I t : ℚ) (nid : ℕ) (s : SimState) : SimState :=
  let u1 := eulerStep p I s.u dt
  let s1 : SimState := { s with u := u1, u_i := s.u_i ++ [u1] }
  let s2 : SimState :=
    if p.u_thres ≤ u1 then
      { s1 with t_spike := s1.t_spike ++ [t], n_spike := s1.n_spike ++ [nid],
                u := p.u_reset }
    else s1
  { s2 with t_i := s2.t_i ++ [t] }

/-- `runConstFrom p dt I nid k n s` runs `n` iterations of the Task 1
loop body with constant current `I`, the first at step index `k`
(simulated time `k * dt`). -/
def runConstFrom (p : NeuronParams) (dt I : ℚ) (nid : ℕ) : ℕ → ℕ → SimState → SimState
  | _, 0, s => s
  | k, n + 1, s => runConstFrom p dt I nid (k + 1) n (stepBody p dt I ((k : ℚ) * dt) nid s)

/-- Number of iterations of `t = 0; while t <= horizon: ...; t += dt`
under exact arithmetic: the body runs for every step index `k` with
`k * dt ≤ horizon`, i.e. `⌊horizon / dt⌋ + 1` times (for `dt > 0`,
`horizon ≥ 0`). -/
def numSteps (dt horizon : ℚ) : ℕ :=
  (⌊horizon / dt⌋).toNat + 1

/-- A full constant-current run of `n` steps from the initial state. -/
def runConstN (p : NeuronParams) (dt I : ℚ) (n : ℕ) : SimState :=
  runConstFrom p dt I 0 0 n (initState p)

/-- `run_simulation` (spec section 6): one constant-current run over the
whole horizon, returning the accumulated `SimState`. -/
def run_simulation (p : NeuronParams) (I dt horizon : ℚ) : SimState :=
  runConstN p dt I (numSteps dt horizon)

/-- Spikes generated during one `n`-step run (src line 218 uses
`len(t_spike)`). -/
def spikeCountN (p : NeuronParams) (I dt : ℚ) (n : ℕ) : ℕ :=
  (runConstN p dt I n).t_spike.length

/-- Spikes generated during one run over the whole horizon. -/
def spikeCount (p : NeuronParams) (I dt horizon : ℚ) : ℕ :=
  (run_simulation p I dt horizon).t_spike.length

/-- The membrane potential after `m` Euler updates from `u_rest` with
constant current `I` and no spike resets (the pure integrator
trajectory). -/
def eulerIter (p : NeuronParams) (I dt : ℚ) : ℕ → ℚ
  | 0 => p.u_rest
  | m + 1 => eulerStep p I (eulerIter p I dt m) dt

/-- Task 2 rheobase search loop body (src lines 141-164): run a full
simulation with current `I`; then `I_syn += step_I` (src line 164);
the `while t_spike == []` condition is re-checked only after the
increment, so the loop exits with the already-incremented current. -/
def findRheobaseAux (p : NeuronParams) (dt : ℚ) (n : ℕ) (stepI : ℚ) : ℕ → ℚ → Option ℚ
  | 0, _ => none
  | fuel + 1, I =>
    let r := runConstN p dt I n
    let I1 := I + stepI
    if r.t_spike ≠ [] then some I1
    else findRheobaseAux p dt n stepI fuel I1

/-- `find_rheobase` (spec section 6) as implemented by the Task 2 loop,
fuel-indexed because the source loop has no iteration ceiling. -/
def find_rheobase (p : NeuronParams) (dt horizon startI stepI : ℚ) (fuel : ℕ) : Option ℚ :=
  findRheobaseAux p dt (numSteps dt horizon) stepI fuel startI

/-- The mutable loop variables of one Task 5 bounded-stimulus run
(src lines 318-352).  `Isyn` is part of the state because the source
implements the cutoff by the mutation `if t >= t_stimuli: I_syn = 0`
(src lines 332-333), and `I_syn` is not re-initialised between the
runs of the duration search. -/
structure BoundedState where
  u : ℚ
  Isyn : ℚ
  t_spike : List ℚ
  n_spike : List ℕ
  u_i : List ℚ
  t_i : List ℚ
deriving DecidableEq

/-- Start state of one bounded-stimulus run: fresh lists, `u = u_rest`,
and whatever value `I_syn` currently has (src line 311 sets it once per
current, before the search loop). -/
def boundedInit (p : NeuronParams) (I : ℚ) : BoundedState :=
  ⟨p.u_rest, I, [], [], [], []⟩

/-- One iteration of the Task 5 loop body (src lines 331-352) at time
`t` with cutoff `tStim`: zero `I_syn` once `t >= t_stimuli`, Euler step,
store `u`, spike condition, store `t`. -/
def boundedStepBody (p : NeuronParams) (dt tStim t : ℚ) (nid : ℕ) (s : BoundedState) :
    BoundedState :=
  let I1 := if tStim ≤ t then 0 else s.Isyn
  let u1 := eulerStep p I1 s.u dt
  let s1 : BoundedState := { s with Isyn := I1, u := u1, u_i := s.u_i ++ [u1] }
  let s2 : BoundedState :=
    if p.u_thres ≤ u1 then
      { s1 with t_spike := s1.t_spike ++ [t], n_spike := s1.n_spike ++ [nid],
                u := p.u_reset }
    else s1
  { s2 with t_i := s2.t_i ++ [t] }

/-- `n` iterations of the Task 5 loop body, the first at step index `k`. -/
def runBoundedFrom (p : NeuronParams) (dt tStim : ℚ) (nid : ℕ) :
    ℕ → ℕ → BoundedState → BoundedState
  | _, 0, s => s
  | k, n + 1, s =>
      runBoundedFrom p dt tStim nid (k + 1) n (boundedStepBody p dt tStim ((k : ℚ) * dt) nid s)

/-- A full bounded-stimulus run of `n` steps, starting with `I_syn = I`. -/
def runBoundedN (p : NeuronParams) (dt tStim I : ℚ) (n : ℕ) : BoundedState :=
  runBoundedFrom p dt tStim 0 0 n (boundedInit p I)

/-- Task 5 duration search loop (src lines 315-352) for a single current:
`t_stimuli += step_duration` at the loop top (src line 316), then a full
bounded run; on the first spike of the first spiking run the source
records and reports the spike time `t` (src lines 344-347), which is the
head of `t_spike`; otherwise the loop repeats with `I_syn` carried over
from the previous run.  Fuel-indexed because the source loop has no
iteration ceiling. -/
def findMinDurationAux (p : NeuronParams) (dt : ℚ) (n : ℕ) (stepDur : ℚ) :
    ℕ → ℚ → ℚ → Option ℚ
  | 0, _, _ => none
  | fuel + 1, tStim, I =>
    let tStim1 := tStim + stepDur
    let r := runBoundedN p dt tStim1 I n
    match r.t_spike with
    | [] => findMinDurationAux p dt n stepDur fuel tStim1 r.Isyn
    | t0 :: _ => some t0

/-- `find_min_stimulus_duration` (spec section 6) as implemented by the
Task 5 loop for one current. -/
def find_min_stimulus_duration (p : NeuronParams) (dt horizon I stepDur : ℚ) (fuel : ℕ) :
    Option ℚ :=
  findMinDurationAux p dt (numSteps dt horizon) stepDur fuel 0 I

/-- Modelled from the spec (section 4.1, the code realises the cutoff by
mutating `I_syn` instead): `bounded(I, t_cutoff): returns I for
t < t_cutoff, else 0`. -/
def boundedProfile (I tcut t : ℚ) : ℚ :=
  if t < tcut then I else 0

/-- Coupled invariant for the monotonicity of the spike count in the
input current: the higher-current run has at least as many spikes, at
least as high a membrane potential whenever the spike counts agree, and
its membrane potential never falls below `u_reset`. -/
def SpikeInv (p : NeuronParams) (s1 s2 : SimState) : Prop :=
  s1.t_spike.length ≤ s2.t_spike.length ∧
  (s1.t_spike.length = s2.t_spike.length → s1.u ≤ s2.u) ∧
  p.u_reset ≤ s2.u

/-- Reference neuron parameters (src lines 74-78):
`R = 95e6 Ω`, `tau_m = 30e-3 s`, `u_rest = u_reset = -65e-3 V`,
`u_thres = -50e-3 V`. -/
def refParams : NeuronParams :=
  ⟨95 * 10 ^ 6, 30 / 1000, -65 / 1000, -65 / 1000, -50 / 1000⟩

/-- Reference timestep `dt = 1e-5 s` (src line 71). -/
def refDt : ℚ := 1 / 100000

/-- Reference scenario 2 input current `I_syn = 250e-12 A` (src line 182). -/
def refI : ℚ := 250 / 10 ^ 12

/-- Small concrete parameters used for counterexamples and witnesses:
`R = 1`, `tau_m = 1`, `u_rest = u_reset = 0`, `u_thres = 1`. -/
def cexParams : NeuronParams :=
  ⟨1, 1, 0, 0, 1⟩

/-- Like `cexParams` but with threshold `2`; used for the duration-search
counterexamples. -/
def durParams : NeuronParams :=
  ⟨1, 1, 0, 0, 2⟩

/-- Like `cexParams` but with threshold `3`; with current `2` and a
one-second stimulus no spike is reached within a two-second horizon, which
exhibits the divergence of the Task 5 search loop. -/
def divParams : NeuronParams :=
  ⟨1, 1, 0, 0, 3⟩

-- Unfolding lemmas for the step body.

theorem stepBody_u (p : NeuronParams) (dt I t : ℚ) (nid : ℕ) (s : SimState) :
    (stepBody p dt I t nid s).u =
      if p.u_thres ≤ eulerStep p I s.u dt then p.u_reset else eulerStep p I s.u dt := by
  simp only [stepBody]
  split <;> rfl

theorem stepBody_t_spike (p : NeuronParams) (dt I t : ℚ) (nid : ℕ) (s : SimState) :
    (stepBody p dt I t nid s).t_spike =
      if p.u_thres ≤ eulerStep p I s.u dt then s.t_spike ++ [t] else s.t_spike := by
  simp only [stepBody]
  split <;> rfl

theorem stepBody_n_spike (p : NeuronParams) (dt I t : ℚ) (nid : ℕ) (s : SimState) :
    (stepBody p dt I t nid s).n_spike =
      if p.u_thres ≤ eulerStep p I s.u dt then s.n_spike ++ [nid] else s.n_spike := by
  simp only [stepBody]
  split <;> rfl

theorem stepBody_u_i (p : NeuronParams) (dt I t : ℚ) (nid : ℕ) (s : SimState) :
    (stepBody p dt I t nid s).u_i = s.u_i ++ [eulerStep p I s.u dt] := by
  simp only [stepBody]
  split <;> rfl

theorem stepBody_t_i (p : NeuronParams) (dt I t : ℚ) (nid : ℕ) (s : SimState) :
    (stepBody p dt I t nid s).t_i = s.t_i ++ [t] := by
  simp only [stepBody]
  split <;> rfl

theorem stepBody_spike_len (p : NeuronParams) (dt I t : ℚ) (nid : ℕ) (s : SimState) :
    (stepBody p dt I t nid s).t_spike.length =
      s.t_spike.length + (if p.u_thres ≤ eulerStep p I s.u dt then 1 else 0) := by
  rw [stepBody_t_spike]
  split <;> simp

-- Peeling the last step off a run.

theorem runConstFrom_succ (p : NeuronParams) (dt I : ℚ) (nid : ℕ) :
    ∀ n k s, runConstFrom p dt I nid k (n + 1) s =
      stepBody p dt I (((k + n : ℕ) : ℚ) * dt) nid (runConstFrom p dt I nid k n s) := by
  intro n
  induction n with
  | zero => intro k s; rfl
  | succ m ih =>
      intro k s
      have hkm : k + 1 + m = k + (m + 1) := by omega
      calc runConstFrom p dt I nid k (m + 1 + 1) s
          = runConstFrom p dt I nid (k + 1) (m + 1) (stepBody p dt I ((k : ℚ) * dt) nid s) :=
            rfl
        _ = stepBody p dt I (((k + 1 + m : ℕ) : ℚ) * dt) nid
              (runConstFrom p dt I nid (k + 1) m (stepBody p dt I ((k : ℚ) * dt) nid s)) :=
            ih (k + 1) _
        _ = stepBody p dt I (((k + (m + 1) : ℕ) : ℚ) * dt) nid
              (runConstFrom p dt I nid k (m + 1) s) := by rw [hkm]; rfl

theorem runConstN_succ (p : NeuronParams) (dt I : ℚ) (n : ℕ) :
    runConstN p dt I (n + 1) = stepBody p dt I ((n : ℚ) * dt) 0 (runConstN p dt I n) := by
  unfold runConstN
  rw [runConstFrom_succ]
  norm_num

-- Algebraic facts about the Euler update.

theorem eulerStep_sub (p : NeuronParams) (I1 I2 u1 u2 dt : ℚ) (htau : p.tau_m ≠ 0) :
    eulerStep p I2 u2 dt - eulerStep p I1 u1 dt =
      ((p.tau_m - dt) * (u2 - u1) + dt * p.R * (I2 - I1)) / p.tau_m := by
  unfold eulerStep
  field_simp
  ring

theorem eulerStep_mono (p : NeuronParams) (I1 I2 u1 u2 dt : ℚ)
    (htau : 0 < p.tau_m) (hdt : 0 ≤ dt) (hdtau : dt ≤ p.tau_m) (hR : 0 ≤ p.R)
    (hu : u1 ≤ u2) (hI : I1 ≤ I2) :
    eulerStep p I1 u1 dt ≤ eulerStep p I2 u2 dt := by
  have hsub := eulerStep_sub p I1 I2 u1 u2 dt htau.ne'
  have hnn : 0 ≤ ((p.tau_m - dt) * (u2 - u1) + dt * p.R * (I2 - I1)) / p.tau_m := by
    apply div_nonneg _ htau.le
    have h1 : 0 ≤ (p.tau_m - dt) * (u2 - u1) := mul_nonneg (by linarith) (by linarith)
    have h2 : 0 ≤ dt * p.R * (I2 - I1) := mul_nonneg (mul_nonneg hdt hR) (by linarith)
    linarith
  linarith

theorem eulerStep_reset_le (p : NeuronParams) (I u dt : ℚ)
    (htau : 0 < p.tau_m) (hdt : 0 ≤ dt) (hdtau : dt ≤ p.tau_m) (hR : 0 ≤ p.R)
    (hI : 0 ≤ I) (hrr : p.u_reset ≤ p.u_rest) (hu : p.u_reset ≤ u) :
    p.u_reset ≤ eulerStep p I u dt := by
  have key : eulerStep p I u dt - p.u_reset =
      ((p.tau_m - dt) * (u - p.u_reset) + dt * (p.u_rest - p.u_reset) + dt * p.R * I) /
        p.tau_m := by
    unfold eulerStep
    field_simp
    ring
  have hnn : 0 ≤ ((p.tau_m - dt) * (u - p.u_reset) + dt * (p.u_rest - p.u_reset) +
      dt * p.R * I) / p.tau_m := by
    apply div_nonneg _ htau.le
    have h1 : 0 ≤ (p.tau_m - dt) * (u - p.u_reset) := mul_nonneg (by linarith) (by linarith)
    have h2 : 0 ≤ dt * (p.u_rest - p.u_reset) := mul_nonneg hdt (by linarith)
    have h3 : 0 ≤ dt * p.R * I := mul_nonneg (mul_nonneg hdt hR) hI
    linarith
  linarith

theorem eulerIter_closed (p : NeuronParams) (I dt : ℚ) (htau : p.tau_m ≠ 0) (m : ℕ) :
    eulerIter p I dt m = p.u_rest + p.R * I * (1 - (1 - dt / p.tau_m) ^ m) := by
  induction m with
  | zero => simp [eulerIter]
  | succ n ih =>
      show eulerStep p I (eulerIter p I dt n) dt = _
      rw [ih]
      unfold eulerStep
      rw [pow_succ]
      field_simp
      ring

/-- With `u_reset = u_rest` and a pure-integrator trajectory that stays
below threshold for the first `nper - 1` updates and crosses it at the
`nper`-th, the run is periodic: after `N` steps the membrane potential is
at trajectory position `N % nper` and `N / nper` spikes have been
recorded. -/
theorem run_periodic (p : NeuronParams) (I dt : ℚ) (nper : ℕ) (hn : 0 < nper)
    (hreset : p.u_reset = p.u_rest)
    (hbelow : ∀ m, 0 < m → m < nper → eulerIter p I dt m < p.u_thres)
    (hcross : p.u_thres ≤ eulerIter p I dt nper) :
    ∀ N, (runConstN p dt I N).u = eulerIter p I dt (N % nper) ∧
      (runConstN p dt I N).t_spike.length = N / nper := by
  intro N
  induction N with
  | zero =>
      constructor
      · simp [runConstN, runConstFrom, initState, eulerIter, Nat.zero_mod]
      · simp [runConstN, runConstFrom, initState, Nat.zero_div]
  | succ M ih =>
      obtain ⟨hu, hlen⟩ := ih
      have hdm := Nat.div_add_mod M nper
      have hrlt : M % nper < nper := Nat.mod_lt _ hn
      have hcand : eulerStep p I (runConstN p dt I M).u dt =
          eulerIter p I dt (M % nper + 1) := by
        rw [hu]; rfl
      rw [runConstN_succ]
      by_cases hsp : M % nper + 1 = nper
      · have hth : p.u_thres ≤ eulerStep p I (runConstN p dt I M).u dt := by
          rw [hcand, hsp]; exact hcross
        have hM1 : M + 1 = nper * (M / nper + 1) := by
          rw [Nat.mul_succ]; omega
        constructor
        · rw [stepBody_u, if_pos hth, hreset, hM1, Nat.mul_mod_right]
          rfl
        · rw [stepBody_spike_len, if_pos hth, hlen, hM1,
            Nat.mul_div_cancel_left _ hn]
      · have hth : ¬ p.u_thres ≤ eulerStep p I (runConstN p dt I M).u dt := by
          rw [hcand]
          exact not_le.mpr (hbelow (M % nper + 1) (Nat.succ_pos _) (by omega))
        have hM1 : M + 1 = nper * (M / nper) + (M % nper + 1) := by omega
        have hlt2 : M % nper + 1 < nper := by omega
        have hmod : (M + 1) % nper = M % nper + 1 := by
          rw [hM1, Nat.mul_add_mod, Nat.mod_eq_of_lt hlt2]
        have hdiv : (M + 1) / nper = M / nper := by
          rw [hM1, Nat.mul_add_div hn, Nat.div_eq_of_lt hlt2, Nat.add_zero]
        constructor
        · rw [stepBody_u, if_neg hth, hcand, hmod]
        · rw [stepBody_spike_len, if_neg hth, hlen, Nat.add_zero, hdiv]

-- Reference scenario 2: exact threshold-crossing step of the pure
-- integrator trajectory.

set_option maxRecDepth 20000

theorem ref_pow_big_lt : (7 : ℕ) * 3000 ^ 2995 < 19 * 2999 ^ 2995 := by decide

theorem ref_pow_big_le : (19 : ℕ) * 2999 ^ 2996 ≤ 7 * 3000 ^ 2996 := by decide

theorem ref_pow_2995 : (7 : ℚ) / 19 < (2999 / 3000) ^ 2995 := by
  rw [div_pow, div_lt_div_iff (by norm_num) (by positivity)]
  have hcast : ((7 : ℕ) * 3000 ^ 2995 : ℚ) < ((19 : ℕ) * 2999 ^ 2995 : ℚ) := by
    exact_mod_cast ref_pow_big_lt
  push_cast at hcast
  linarith

theorem ref_pow_2996 : ((2999 : ℚ) / 3000) ^ 2996 ≤ 7 / 19 := by
  rw [div_pow, div_le_div_iff (by positivity) (by norm_num)]
  have hcast : ((19 : ℕ) * 2999 ^ 2996 : ℚ) ≤ ((7 : ℕ) * 3000 ^ 2996 : ℚ) := by
    exact_mod_cast ref_pow_big_le
  push_cast at hcast
  linarith

theorem ref_closed (m : ℕ) :
    eulerIter refParams refI refDt m = -13 / 200 + 19 / 800 * (1 - (2999 / 3000) ^ m) := by
  rw [eulerIter_closed _ _ _ (by norm_num [refParams])]
  have hlam : 1 - refDt / refParams.tau_m = (2999 : ℚ) / 3000 := by
    norm_num [refDt, refParams]
  have hRI : refParams.R * refI = (19 : ℚ) / 800 := by
    norm_num [refParams, refI]
  have hrest : refParams.u_rest = -(13 : ℚ) / 200 := by
    norm_num [refParams]
  rw [hlam, hRI, hrest]

theorem ref_below (m : ℕ) (h0 : 0 < m) (hm : m < 2996) :
    eulerIter refParams refI refDt m < refParams.u_thres := by
  rw [ref_closed]
  have h1 : ((2999 : ℚ) / 3000) ^ 2995 ≤ (2999 / 3000) ^ m :=
    pow_le_pow_of_le_one (by norm_num) (by norm_num) (by omega)
  have h2 := ref_pow_2995
  have hthres : refParams.u_thres = -(1 : ℚ) / 20 := by norm_num [refParams]
  rw [hthres]
  linarith

theorem ref_cross : refParams.u_thres ≤ eulerIter refParams refI refDt 2996 := by
  rw [ref_closed]
  have h2 := ref_pow_2996
  have hthres : refParams.u_thres = -(1 : ℚ) / 20 := by norm_num [refParams]
  rw [hthres]
  linarith

theorem ref_numSteps : numSteps refDt 1 = 100001 := by
  have h1 : (1 : ℚ) / refDt = ((100000 : ℤ) : ℚ) := by norm_num [refDt]
  unfold numSteps
  rw [h1, Int.floor_intCast]
  rfl

/-- C8: with the reference parameters `R = 95e6 Ω`, `tau_m = 30e-3 s`,
`u_rest = u_reset = -65e-3 V`, `u_thres = -50e-3 V`, `dt = 1e-5 s`,
constant current `I = 250e-12 A` and horizon `1 s`, one run of the
simulation produces exactly 33 spikes. -/
theorem ref_scenario_250pA_33_spikes : spikeCount refParams refI refDt 1 = 33 := by
  unfold spikeCount run_simulation
  rw [ref_numSteps]
  have h := (run_periodic refParams refI refDt 2996 (by norm_num)
    (by norm_num [refParams]) ref_below ref_cross 100001).2
  rw [h]

-- Monotonicity of the spike count in the input current.

theorem spikeInv_step (p : NeuronParams) (dt I1 I2 t : ℚ) (nid : ℕ)
    (htau : 0 < p.tau_m) (hdt : 0 ≤ dt) (hdtau : dt ≤ p.tau_m) (hR : 0 ≤ p.R)
    (hrr : p.u_reset ≤ p.u_rest) (hI1 : 0 ≤ I1) (hI : I1 ≤ I2)
    (s1 s2 : SimState) (h : SpikeInv p s1 s2) :
    SpikeInv p (stepBody p dt I1 t nid s1) (stepBody p dt I2 t nid s2) := by
  obtain ⟨hlen, hequ, hres⟩ := h
  have hI2 : 0 ≤ I2 := hI1.trans hI
  have hv2res : p.u_reset ≤ eulerStep p I2 s2.u dt :=
    eulerStep_reset_le p I2 s2.u dt htau hdt hdtau hR hI2 hrr hres
  have hmono : s1.t_spike.length = s2.t_spike.length →
      eulerStep p I1 s1.u dt ≤ eulerStep p I2 s2.u dt := fun he =>
    eulerStep_mono p I1 I2 s1.u s2.u dt htau hdt hdtau hR (hequ he) hI
  refine ⟨?_, ?_, ?_⟩
  · rw [stepBody_spike_len, stepBody_spike_len]
    by_cases h1 : p.u_thres ≤ eulerStep p I1 s1.u dt <;>
      by_cases h2 : p.u_thres ≤ eulerStep p I2 s2.u dt <;>
      simp only [h1, h2, if_pos, if_neg, if_true, if_false]
    · omega
    · by_cases he : s1.t_spike.length = s2.t_spike.length
      · exact absurd (h1.trans (hmono he)) h2
      · omega
    · omega
    · omega
  · intro hlen2
    rw [stepBody_spike_len, stepBody_spike_len] at hlen2
    rw [stepBody_u, stepBody_u]
    by_cases h1 : p.u_thres ≤ eulerStep p I1 s1.u dt <;>
      by_cases h2 : p.u_thres ≤ eulerStep p I2 s2.u dt <;>
      simp only [h1, h2, if_pos, if_neg, if_true, if_false] <;>
      simp only [h1, h2, if_pos, if_neg, if_true, if_false] at hlen2
    · exact le_refl _
    · exact hv2res
    · exact absurd hlen2 (by omega)
    · exact hmono (by omega)
  · rw [stepBody_u]
    split
    · exact le_refl _
    · exact hv2res

theorem spikeInv_run (p : NeuronParams) (dt I1 I2 : ℚ) (nid : ℕ)
    (htau : 0 < p.tau_m) (hdt : 0 ≤ dt) (hdtau : dt ≤ p.tau_m) (hR : 0 ≤ p.R)
    (hrr : p.u_reset ≤ p.u_rest) (hI1 : 0 ≤ I1) (hI : I1 ≤ I2) :
    ∀ n k s1 s2, SpikeInv p s1 s2 →
      SpikeInv p (runConstFrom p dt I1 nid k n s1) (runConstFrom p dt I2 nid k n s2) := by
  intro n
  induction n with
  | zero => intro k s1 s2 h; exact h
  | succ m ih =>
      intro k s1 s2 h
      exact ih (k + 1) _ _
        (spikeInv_step p dt I1 I2 ((k : ℚ) * dt) nid htau hdt hdtau hR hrr hI1 hI s1 s2 h)

/-- C9: for fixed horizon, `dt`, `tau_m`, `R`, `u_rest`, `u_thres` and
`u_reset` (with the parameters in their intended ranges: `tau_m > 0`,
`0 ≤ dt ≤ tau_m`, `R ≥ 0`, `u_reset ≤ u_rest`, nonnegative currents as
in the swept range `[0, 600] pA`), the spike count of one run is
monotone non-decreasing in the constant input current. -/
theorem spike_count_monotone_in_current (p : NeuronParams) (dt horizon I1 I2 : ℚ)
    (htau : 0 < p.tau_m) (hdt : 0 ≤ dt) (hdtau : dt ≤ p.tau_m) (hR : 0 ≤ p.R)
    (hrr : p.u_reset ≤ p.u_rest) (hI1 : 0 ≤ I1) (hI : I1 ≤ I2) :
    spikeCount p I1 dt horizon ≤ spikeCount p I2 dt horizon := by
  unfold spikeCount run_simulation runConstN
  exact (spikeInv_run p dt I1 I2 0 htau hdt hdtau hR hrr hI1 hI
    (numSteps dt horizon) 0 (initState p) (initState p)
    ⟨le_refl _, fun _ => le_refl _, hrr⟩).1

/-- C6: for every step, the integrator computes the next membrane
potential by the single deterministic forward-Euler arithmetic update
`u_next = u + dt * ( -(u - u_rest) + R * I ) / tau_m`, with no branching
on the value of `u`: the update applied inside the loop body (the value
committed to the sample list before any spike handling) equals this
closed form for every state. -/
theorem euler_forward_update (p : NeuronParams) (dt I t u : ℚ) (nid : ℕ) (s : SimState) :
    eulerStep p I u dt = u + dt * ((-(u - p.u_rest) + p.R * I) / p.tau_m) ∧
    (stepBody p dt I t nid s).u_i = s.u_i ++ [s.u + dt * ((-(s.u - p.u_rest) + p.R * I) / p.tau_m)] := by
  constructor
  · unfold eulerStep; ring
  · rw [stepBody_u_i]
    unfold eulerStep
    ring_nf

/-- C7: at every timestep, after integration: if the just-integrated `u`
is at least `u_thres` then exactly one spike event (its time and the
neuron id) is appended and `u` is replaced by `u_reset`; otherwise `u`
and the spike lists are left unchanged; at most one spike is recorded
per timestep no matter how far `u` overshoots the threshold. -/
theorem spike_detector_contract (p : NeuronParams) (dt I t : ℚ) (nid : ℕ) (s : SimState) :
    (stepBody p dt I t nid s).t_spike =
      (if p.u_thres ≤ eulerStep p I s.u dt then s.t_spike ++ [t] else s.t_spike) ∧
    (stepBody p dt I t nid s).n_spike =
      (if p.u_thres ≤ eulerStep p I s.u dt then s.n_spike ++ [nid] else s.n_spike) ∧
    (stepBody p dt I t nid s).u =
      (if p.u_thres ≤ eulerStep p I s.u dt then p.u_reset else eulerStep p I s.u dt) ∧
    (stepBody p dt I t nid s).t_spike.length ≤ s.t_spike.length + 1 :=
  ⟨stepBody_t_spike p dt I t nid s, stepBody_n_spike p dt I t nid s,
    stepBody_u p dt I t nid s, by rw [stepBody_spike_len]; split <;> omega⟩

/-- C10: provided `u_reset < u_thres`, at the end of every timestep
(after the spike check) the neuron state `u` carried into the next step
is strictly below `u_thres`: this holds for a single loop-body step from
any state, and hence for the state after any positive number of steps of
a run. -/
theorem state_below_threshold_invariant (p : NeuronParams) (dt : ℚ)
    (h : p.u_reset < p.u_thres) :
    (∀ I t : ℚ, ∀ nid : ℕ, ∀ s : SimState, (stepBody p dt I t nid s).u < p.u_thres) ∧
    (∀ I : ℚ, ∀ nid k n : ℕ, ∀ s : SimState, 1 ≤ n →
      (runConstFrom p dt I nid k n s).u < p.u_thres) := by
  have hstep : ∀ I t : ℚ, ∀ nid : ℕ, ∀ s : SimState,
      (stepBody p dt I t nid s).u < p.u_thres := by
    intro I t nid s
    rw [stepBody_u]
    split
    · exact h
    · exact lt_of_not_le (by assumption)
  refine ⟨hstep, ?_⟩
  intro I nid k n
  induction n generalizing k with
  | zero => intro s hn; omega
  | succ m ih =>
      intro s _
      match m, ih with
      | 0, _ => exact hstep I ((k : ℚ) * dt) nid s
      | m + 1, ih => exact ih (k + 1) (stepBody p dt I ((k : ℚ) * dt) nid s) (by omega)

/-- C1 (amended): within each step the sample list `u_i` receives the
just-integrated candidate potential before the spike check runs, so on a
spiking step the recorded sample is the supra-threshold candidate while
the state carried into the next step is `u_reset`; the spike event is
still appended for that step. -/
theorem sample_records_candidate_before_reset (p : NeuronParams) (dt I t : ℚ)
    (nid : ℕ) (s : SimState) (h : p.u_thres ≤ eulerStep p I s.u dt) :
    (stepBody p dt I t nid s).u_i = s.u_i ++ [eulerStep p I s.u dt] ∧
    (stepBody p dt I t nid s).t_spike = s.t_spike ++ [t] ∧
    (stepBody p dt I t nid s).u = p.u_reset := by
  refine ⟨stepBody_u_i p dt I t nid s, ?_, ?_⟩
  · rw [stepBody_t_spike, if_pos h]
  · rw [stepBody_u, if_pos h]

-- The rheobase search returns one step past the first spiking candidate.

theorem findRheobaseAux_spec (p : NeuronParams) (dt : ℚ) (n : ℕ) (stepI : ℚ) :
    ∀ fuel startI I, findRheobaseAux p dt n stepI fuel startI = some I →
      ∃ m : ℕ, I = startI + ((m : ℚ) + 1) * stepI ∧
        (runConstN p dt (startI + (m : ℚ) * stepI) n).t_spike ≠ [] ∧
        ∀ j : ℕ, j < m → (runConstN p dt (startI + (j : ℚ) * stepI) n).t_spike = [] := by
  intro fuel
  induction fuel with
  | zero => intro startI I h; exact absurd h (by simp [findRheobaseAux])
  | succ f ih =>
      intro startI I h
      simp only [findRheobaseAux] at h
      by_cases hsp : (runConstN p dt startI n).t_spike ≠ []
      · rw [if_pos hsp] at h
        refine ⟨0, ?_, ?_, ?_⟩
        · rw [← Option.some_inj.mp h]; push_cast; ring
        · simpa using hsp
        · intro j hj; omega
      · rw [if_neg hsp] at h
        obtain ⟨m, hI, hspike, hall⟩ := ih (startI + stepI) I h
        refine ⟨m + 1, ?_, ?_, ?_⟩
        · rw [hI]; push_cast; ring
        · have : startI + stepI + (m : ℚ) * stepI = startI + ((m : ℕ) + 1 : ℚ) * stepI := by
            ring
          rw [this] at hspike
          convert hspike using 4
          push_cast
          ring
        · intro j hj
          match j with
          | 0 =>
              simp only [Nat.cast_zero, zero_mul, add_zero]
              exact not_not.mp hsp
          | j + 1 =>
              have hlt : j < m := by omega
              have heq : startI + stepI + (j : ℚ) * stepI =
                  startI + ((j : ℕ) + 1 : ℚ) * stepI := by ring
              have := hall j hlt
              rw [heq] at this
              convert this using 4
              push_cast
              ring

/-- C2 (amended): when the Task 2 search loop exits with value `I`, then
`I` is one `step_I` past the first spiking candidate: the run at
`I - step_I` produced at least one spike, and every earlier candidate
from the floor onwards produced none.  (The increment `I_syn += step_I`
precedes the `while t_spike == []` re-check, so the loop exits with the
already-incremented current rather than the first spiking one.) -/
theorem rheobase_returns_step_past_first_spiking (p : NeuronParams)
    (dt horizon startI stepI : ℚ) (fuel : ℕ) (I : ℚ)
    (h : find_rheobase p dt horizon startI stepI fuel = some I) :
    ∃ m : ℕ, I = startI + ((m : ℚ) + 1) * stepI ∧
      1 ≤ spikeCount p (startI + (m : ℚ) * stepI) dt horizon ∧
      ∀ j : ℕ, j < m → spikeCount p (startI + (j : ℚ) * stepI) dt horizon = 0 := by
  obtain ⟨m, hI, hspike, hall⟩ := findRheobaseAux_spec p dt (numSteps dt horizon) stepI fuel startI I h
  refine ⟨m, hI, ?_, ?_⟩
  · unfold spikeCount run_simulation
    exact Nat.one_le_iff_ne_zero.mpr (fun hz => hspike (List.length_eq_zero.mp hz))
  · intro j hj
    unfold spikeCount run_simulation
    rw [hall j hj]
    rfl

-- Divergence of the Task 5 duration search: once `I_syn` has been
-- zeroed by a run that reached its cutoff, every later run integrates a
-- zero current from rest and can never spike.

theorem boundedStep_zero (tS t : ℚ) (nid : ℕ) (s : BoundedState)
    (hu : s.u = 0) (hI : s.Isyn = 0) :
    boundedStepBody divParams 1 tS t nid s =
      { s with u := 0, Isyn := 0, u_i := s.u_i ++ [0], t_i := s.t_i ++ [t] } := by
  have he : eulerStep divParams 0 0 1 = 0 := by norm_num [eulerStep, divParams]
  simp only [boundedStepBody, hu, hI, ite_self, he]
  rw [if_neg (by norm_num [divParams] : ¬ divParams.u_thres ≤ (0 : ℚ))]

theorem runBoundedFrom_zero (tS : ℚ) (nid : ℕ) :
    ∀ n k, ∀ s : BoundedState, s.u = 0 → s.Isyn = 0 →
      (runBoundedFrom divParams 1 tS nid k n s).t_spike = s.t_spike ∧
      (runBoundedFrom divParams 1 tS nid k n s).u = 0 ∧
      (runBoundedFrom divParams 1 tS nid k n s).Isyn = 0 := by
  intro n
  induction n with
  | zero => exact fun k s hu hI => ⟨rfl, hu, hI⟩
  | succ m ih =>
      intro k s hu hI
      have hstep := boundedStep_zero tS ((k : ℚ) * 1) nid s hu hI
      have hrun : runBoundedFrom divParams 1 tS nid k (m + 1) s =
          runBoundedFrom divParams 1 tS nid (k + 1) m
            ({ s with u := 0, Isyn := 0, u_i := s.u_i ++ [0], t_i := s.t_i ++ [(k : ℚ) * 1] }) := by
        rw [runBoundedFrom, hstep]
      rw [hrun]
      refine ih (k + 1) _ ?_ ?_ <;> rfl

theorem runBoundedN_zero (tS : ℚ) :
    (runBoundedN divParams 1 tS 0 3).t_spike = [] ∧
    (runBoundedN divParams 1 tS 0 3).Isyn = 0 := by
  have h := runBoundedFrom_zero tS 0 3 0 (boundedInit divParams 0) rfl rfl
  exact ⟨h.1, h.2.2⟩

theorem minDurationAux_zero_current :
    ∀ fuel tS, findMinDurationAux divParams 1 3 1 fuel tS 0 = none := by
  intro fuel
  induction fuel with
  | zero => intro tS; rfl
  | succ f ih =>
      intro tS
      simp only [findMinDurationAux]
      rw [(runBoundedN_zero (tS + 1)).1, (runBoundedN_zero (tS + 1)).2]
      exact ih (tS + 1)

-- Concrete evaluations: counterexamples, failing inputs, witnesses.
-- The arithmetic of `ℚ` is sealed against unfolding by default, so the
-- evaluation theorems of this section temporarily restore it.

section

attribute [local semireducible] Rat.add Rat.mul Rat.sub Rat.inv

/-- C1 (counterexample): with `R = tau_m = 1`, `u_rest = u_reset = 0`,
`u_thres = 1`, `dt = 1` and constant current `2`, the single simulated
step spikes, yet the sample recorded for that step is the
supra-threshold candidate `2`, not the post-reset potential
`u_reset = 0`. -/
theorem spike_step_sample_not_reset_cex :
    (runConstN cexParams 1 2 1).t_spike = [0] ∧
    (runConstN cexParams 1 2 1).u_i = [2] ∧
    (2 : ℚ) ≠ cexParams.u_reset := by decide

/-- C1 (witness for the amended claim at a concrete spiking step). -/
theorem sample_records_candidate_before_reset_witness :
    cexParams.u_thres ≤ eulerStep cexParams 2 (initState cexParams).u 1 ∧
    ((stepBody cexParams 1 2 0 0 (initState cexParams)).u_i =
        (initState cexParams).u_i ++ [eulerStep cexParams 2 (initState cexParams).u 1] ∧
      (stepBody cexParams 1 2 0 0 (initState cexParams)).t_spike =
        (initState cexParams).t_spike ++ [0] ∧
      (stepBody cexParams 1 2 0 0 (initState cexParams)).u = cexParams.u_reset) :=
  ⟨by decide,
    sample_records_candidate_before_reset cexParams 1 2 0 0 (initState cexParams) (by decide)⟩

/-- C2 (counterexample): with the small parameters, floor current `5`
(which already spikes: the first spiking candidate is `5`) and step `1`,
the Task 2 loop returns `6`, not the first spiking candidate. -/
theorem rheobase_off_by_one_cex :
    find_rheobase cexParams 1 1 5 1 3 = some 6 ∧
    1 ≤ spikeCount cexParams 5 1 1 ∧
    (6 : ℚ) ≠ 5 := by decide

/-- C2 (witness for the amended claim at the concrete search above). -/
theorem rheobase_returns_step_past_first_spiking_witness :
    ∃ m : ℕ, (6 : ℚ) = 5 + ((m : ℚ) + 1) * 1 ∧
      1 ≤ spikeCount cexParams (5 + (m : ℚ) * 1) 1 1 ∧
      ∀ j : ℕ, j < m → spikeCount cexParams (5 + (j : ℚ) * 1) 1 1 = 0 :=
  rheobase_returns_step_past_first_spiking cexParams 1 1 5 1 3 6 (by decide)

/-- C3: the Task 5 duration search does not return the smallest spiking
cutoff: with threshold `2`, current `2`, step `1` and horizon `2`, the
first searched cutoff `1` produces a spike at time `0`, and the search
returns that spike time `0` — a value that is not the spiking cutoff,
and a cutoff at which the bounded run produces no spike at all. -/
theorem min_duration_returns_spike_time_not_cutoff :
    find_min_stimulus_duration durParams 1 2 2 1 5 = some 0 ∧
    (runBoundedN durParams 1 1 2 3).t_spike ≠ [] ∧
    (runBoundedN durParams 1 0 2 3).t_spike = [] := by decide

/-- C4: the bounded stimulus is not a pure stateless function of time:
the run with cutoff `1` and amplitude `2` ends with the mutated
`I_syn = 0`, and the next run of the search (cutoff `2`, inheriting that
`I_syn`) applies current `0` at its first step even though `0 < 2` and
the pure profile `bounded(2, 2)` returns `2` at `t = 0`. -/
theorem bounded_stimulus_state_leak :
    boundedProfile 2 2 0 = 2 ∧
    (runBoundedN durParams 1 1 2 3).Isyn = 0 ∧
    (runBoundedFrom durParams 1 2 0 0 1
      (boundedInit durParams ((runBoundedN durParams 1 1 2 3).Isyn))).Isyn = 0 := by decide

/-- C5: the Task 5 duration search has no iteration ceiling and no
`SearchExhausted` report: with threshold `3`, current `2`, step `1` and
horizon `2`, the first run zeroes `I_syn` without spiking, every later
run integrates a zero current, and the loop never exits — for every
fuel bound the search is still running. -/
theorem duration_search_no_ceiling_diverges :
    ∀ fuel : ℕ, find_min_stimulus_duration divParams 1 2 2 1 fuel = none := by
  intro fuel
  have hN : numSteps 1 2 = 3 := by decide
  unfold find_min_stimulus_duration
  rw [hN]
  cases fuel with
  | zero => rfl
  | succ f =>
      have h1 : (runBoundedN divParams 1 (0 + 1) 2 3).t_spike = [] := by decide
      have h2 : (runBoundedN divParams 1 (0 + 1) 2 3).Isyn = 0 := by decide
      simp only [findMinDurationAux]
      rw [h1, h2]
      exact minDurationAux_zero_current f (0 + 1)

/-- C9 (witness): at the small parameters the hypotheses hold and the
spike count at current `0` is at most the spike count at current `2`. -/
theorem spike_count_monotone_in_current_witness :
    spikeCount cexParams 0 1 1 ≤ spikeCount cexParams 2 1 1 :=
  spike_count_monotone_in_current cexParams 1 1 0 2 (by decide) (by decide) (by decide)
    (by decide) (by decide) (by decide) (by decide)

/-- C10 (witness): at the small parameters `u_reset < u_thres` holds and
the state after one step, and after a two-step run, is below threshold. -/
theorem state_below_threshold_invariant_witness :
    cexParams.u_reset < cexParams.u_thres ∧
    (stepBody cexParams 1 2 0 0 (initState cexParams)).u < cexParams.u_thres ∧
    (runConstFrom cexParams 1 2 0 0 2 (initState cexParams)).u < cexParams.u_thres :=
  ⟨by decide,
    (state_below_threshold_invariant cexParams 1 (by decide)).1 2 0 0 (initState cexParams),
    (state_below_threshold_invariant cexParams 1 (by decide)).2 2 0 0 2 (initState cexParams)
      (by decide)⟩

end
